import Mathlib

/-!
Shallow embedding of the subscription tracking and serializability core
(`packages/qwik/src/core/state/common.ts`-style module): subscription edges,
the per-scope subscription manager, the container-wide group index, the
subscription string codec (serializeSubscription / parseSubscription), and
the cycle-safe serializability verifier (verifySerializable).

JavaScript strings are modelled as `List Char`; object identity is modelled
by natural-number handles (`Obj`).  The platform builtins `encodeURI` /
`decodeURI` are modelled as explicit function parameters (`enc` / `dec`),
since they are host-environment primitives, not code of this repository.
-/

/-- A JavaScript string, modelled as a list of characters. -/
abbrev JSStr := List Char

/-- The space character, the token separator of the wire grammar. -/
def spaceChar : Char := Char.ofNat 32

/-- Object identity: hosts, signals, elements are identified by handles. -/
abbrev Obj := Nat

/-- JavaScript truthiness of a possibly-absent string: `undefined` and the
empty string are falsy. -/
def truthyOpt : Option JSStr → Option JSStr
  | none => none
  | some s => if s = [] then none else some s

/-- Boolean truthiness test for an optional string (`key && ...` tests). -/
def truthyB : Option JSStr → Bool
  | none => false
  | some s => decide (s ≠ [])

/-- A stored subscription edge (`Subscriptions` = `A | B | C` in the source):
tag 0 is variant A `[0, host, key]`; tags 1 and 2 are variant B
`[tag, host, signal, elm, prop, key]`; tags 3 and 4 are variant C
`[tag, host, signal, elm, key]` where `elm` may be a literal string
identifier for a not-yet-materialized node. -/
inductive Subscriptions where
  | a (host : Obj) (key : Option JSStr)
  | b (tag2 : Bool) (host : Obj) (signal : Obj) (elm : Obj) (prop : JSStr) (key : Option JSStr)
  | c (tag4 : Bool) (host : Obj) (signal : Obj) (elm : Obj ⊕ JSStr) (key : Option JSStr)
deriving DecidableEq

/-- The integer tag discriminating the edge shape (`sub[0]`). -/
def Subscriptions.tag : Subscriptions → Nat
  | .a _ _ => 0
  | .b t2 _ _ _ _ _ => if t2 then 2 else 1
  | .c t4 _ _ _ _ => if t4 then 4 else 3

/-- The subscriber group of an edge (`sub[1]`). -/
def Subscriptions.group : Subscriptions → Obj
  | .a h _ => h
  | .b _ h _ _ _ _ => h
  | .c _ h _ _ _ => h

/-- The trailing optional key of an edge (`sub[sub.length - 1]`). -/
def Subscriptions.key : Subscriptions → Option JSStr
  | .a _ k => k
  | .b _ _ _ _ _ k => k
  | .c _ _ _ _ k => k

/-- A subscription edge before the key is appended (`Subscriber` in the
source): what `$addSub$` receives. -/
inductive Subscriber where
  | a (host : Obj)
  | b (tag2 : Bool) (host : Obj) (signal : Obj) (elm : Obj) (prop : JSStr)
  | c (tag4 : Bool) (host : Obj) (signal : Obj) (elm : Obj ⊕ JSStr)
deriving DecidableEq

/-- `[...sub, key]`: appending the optional key to a `Subscriber`. -/
def Subscriber.withKey : Subscriber → Option JSStr → Subscriptions
  | .a h, k => .a h k
  | .b t2 h s e p, k => .b t2 h s e p k
  | .c t4 h s e, k => .c t4 h s e k

/-- The subscriber group of a keyless edge (`sub[1]`). -/
def Subscriber.group : Subscriber → Obj
  | .a h => h
  | .b _ h _ _ _ => h
  | .c _ h _ _ => h

/-- One element of the loosely-typed array built by `parseSubscription`:
a number, an object reference, a string, `undefined`, or `NaN` (the result
of `parseInt` on a non-numeric token). -/
inductive PVal where
  | num (n : Int)
  | obj (o : Obj)
  | str (s : JSStr)
  | undefined
  | nan
deriving DecidableEq

/-- An optional key as an array element (`undefined` when absent). -/
def optKeyP : Option JSStr → PVal
  | some s => .str s
  | none => .undefined

/-- A variant-C target as an array element. -/
def elmP : Obj ⊕ JSStr → PVal
  | .inl o => .obj o
  | .inr s => .str s

/-- The array form of a stored edge, for comparison with the array built by
`parseSubscription` (structural equality of tuples). -/
def Subscriptions.toArr : Subscriptions → List PVal
  | .a h k => [.num 0, .obj h, optKeyP k]
  | .b t2 h s e p k =>
      [.num (if t2 then 2 else 1), .obj h, .obj s, .obj e, .str p, optKeyP k]
  | .c t4 h s e k =>
      [.num (if t4 then 4 else 3), .obj h, .obj s, elmP e, optKeyP k]

/-- Decimal rendering of a natural number (`type + ' ' + host` coercion). -/
def natToJSStr (n : Nat) : JSStr := (Nat.repr n).data

/-- Model of JavaScript `parseInt(str, 10)`: skip leading spaces, read an
optional sign, then the longest digit prefix; no digits gives `NaN`
(here `none`). -/
def parseIntModel (s : JSStr) : Option Int :=
  let rec digits : JSStr → Nat → Bool → Option Nat
    | [], acc, got => if got then some acc else none
    | c :: rest, acc, got =>
        if c.isDigit then digits rest (acc * 10 + (c.toNat - 48)) true
        else if got then some acc else none
  let s1 := s.dropWhile (fun c => c = spaceChar)
  match s1 with
  | c :: rest =>
      if c = Char.ofNat 45 then (digits rest 0 false).map (fun n => -(n : Int))
      else if c = Char.ofNat 43 then (digits rest 0 false).map (fun n => (n : Int))
      else (digits s1 0 false).map (fun n => (n : Int))
  | [] => none

/-- `str.split(' ')`: split on every space, keeping empty fragments. -/
def splitSpace : JSStr → List JSStr
  | [] => [[]]
  | c :: rest =>
    if c = spaceChar then [] :: splitSpace rest
    else
      match splitSpace rest with
      | [] => [[c]]
      | t :: ts => (c :: t) :: ts

/-- Append an optional key token: `if (key) base += ' ' + encodeURI(key)`.
An absent or empty (falsy) key adds nothing. -/
def withKeyTok (enc : JSStr → JSStr) (base : JSStr) (key : Option JSStr) : JSStr :=
  match key with
  | none => base
  | some k => if k = [] then base else base ++ spaceChar :: enc k

/-- `serializeSubscription(sub, getObjId)`.  Returns `.ok none` when the
edge encodes to "absent" (unresolvable or falsy host or signal id),
`.ok (some record)` on success, and `.error ()` when `must` throws
(unresolvable target reference of a variant B edge or of a variant C edge
whose target is an object). -/
def serializeSubscription (enc : JSStr → JSStr) (getObjId : Obj → Option JSStr)
    (sub : Subscriptions) : Except Unit (Option JSStr) :=
  match truthyOpt (getObjId sub.group) with
  | none => .ok none
  | some hostId =>
    let base := natToJSStr sub.tag ++ spaceChar :: hostId
    match sub with
    | .a _ key => .ok (some (withKeyTok enc base key))
    | .b _ _ signal elm prop key =>
        match truthyOpt (getObjId signal) with
        | none => .ok none
        | some sid =>
          match getObjId elm with
          | none => .error ()
          | some eid =>
              .ok (some (withKeyTok enc
                (base ++ spaceChar :: (sid ++ spaceChar :: (eid ++ spaceChar :: prop))) key))
    | .c _ _ signal elm key =>
        match truthyOpt (getObjId signal) with
        | none => .ok none
        | some sid =>
          match elm with
          | .inr s =>
              .ok (some (withKeyTok enc (base ++ spaceChar :: (sid ++ spaceChar :: s)) key))
          | .inl o =>
            match getObjId o with
            | none => .error ()
            | some nid =>
                .ok (some (withKeyTok enc (base ++ spaceChar :: (sid ++ spaceChar :: nid)) key))

/-- `safeDecode(str)`: percent-decode a present token, keep `undefined`
absent; decoding may throw. -/
def safeDecode (dec : JSStr → Except Unit JSStr) : Option JSStr → Except Unit PVal
  | some s => (dec s).map PVal.str
  | none => .ok .undefined

/-- A resolved object as an array element (`undefined` when unresolved). -/
def objToP : Option Obj → PVal
  | some o => .obj o
  | none => .undefined

/-- Comparison `type <= n` on the result of `parseInt` (`NaN <= n` is false). -/
def tyLE : Option Int → Int → Bool
  | some m, n => decide (m ≤ n)
  | none, _ => false

/-- `parseSubscription(sub, getObject)`.  `isDescNoEl` — modelled from the
spec: the source test `isSubscriberDescriptor(host) && !host.$el$` (the
resolved group is a reactive-effect descriptor whose host element is
absent), whose implementation lives outside this module.  Assertion
failures (`assertTrue`) and throwing `decodeURI` are `.error ()`;
a dropped (stale) edge is `.ok none`. -/
def parseSubscription (isDescNoEl : Obj → Bool) (dec : JSStr → Except Unit JSStr)
    (getObject : JSStr → Option Obj) (sub : JSStr) : Except Unit (Option (List PVal)) :=
  let parts := splitSpace sub
  let ty := parseIntModel (parts.headD [])
  if parts.length < 2 then .error ()
  else
    match getObject (parts.getD 1 []) with
    | none => .ok none
    | some host =>
      if isDescNoEl host then .ok none
      else
        let tyV : PVal := match ty with | some n => .num n | none => .nan
        if ty = some 0 then
          if parts.length > 3 then .error ()
          else
            match safeDecode dec (parts.get? 2) with
            | .error e => .error e
            | .ok k => .ok (some [tyV, .obj host, k])
        else if tyLE ty 2 then
          if parts.length = 5 ∨ parts.length = 6 then
            match safeDecode dec (parts.get? 5) with
            | .error e => .error e
            | .ok k =>
                .ok (some [tyV, .obj host, objToP (getObject (parts.getD 2 [])),
                  objToP (getObject (parts.getD 3 [])), .str (parts.getD 4 []), k])
          else .error ()
        else if tyLE ty 4 then
          if parts.length = 4 ∨ parts.length = 5 then
            match safeDecode dec (parts.get? 4) with
            | .error e => .error e
            | .ok k =>
                .ok (some [tyV, .obj host, objToP (getObject (parts.getD 2 [])),
                  objToP (getObject (parts.getD 3 [])), k])
          else .error ()
        else .ok (some [tyV, .obj host])

/-- `LocalSubscriptionManager.$addSub$(sub, key)`: a variant-A edge equal on
`(group, key)` to a stored variant-A edge is a no-op; otherwise
`[...sub, key]` is appended (group-index registration is modelled at the
container level). -/
def addSub (subs : List Subscriptions) (sub : Subscriber) (key : Option JSStr) :
    List Subscriptions :=
  match sub with
  | .a host =>
      if subs.any (fun s =>
        match s with
        | .a g k => decide (g = host) && decide (k = key)
        | _ => false) then subs
      else subs ++ [Subscriber.withKey (.a host) key]
  | s => subs ++ [s.withKey key]

/-- `LocalSubscriptionManager.$unsubGroup$(group)`: splice out, in place and
preserving relative order, every edge whose group field equals `group`. -/
def unsubGroup : List Subscriptions → Obj → List Subscriptions
  | [], _ => []
  | s :: rest, g =>
      if s.group = g then unsubGroup rest g else s :: unsubGroup rest g

/-- `LocalSubscriptionManager.$notifySubs$(key)`: the edges handed to
`notifyChange`, in insertion order.  An edge is skipped exactly when the
notify key is truthy, the edge's trailing key is truthy, and they differ. -/
def notifySubs (subs : List Subscriptions) (key : Option JSStr) : List Subscriptions :=
  subs.filter (fun sub => !(truthyB key && truthyB sub.key && decide (sub.key ≠ key)))

/-- The `$notifySubs$` call as a state transition: the edge collection it
leaves behind (the method never mutates `$subs$`) paired with the ordered
list of `notifyChange` invocations. -/
def notifySubsOp (subs : List Subscriptions) (key : Option JSStr) :
    List Subscriptions × List Subscriptions :=
  (subs, notifySubs subs key)

/-- The container state owned by `createSubscriptionManager`: the edge list
of every local manager (indexed by manager id), a store of manager-id
arrays (arrays have identity: `managers.length = 0` truncation is
observable through aliases), and the group-to-managers map holding array
ids. -/
structure ContainerModel where
  mgrSubs : List (List Subscriptions)
  arrs : List (List Nat)
  g2m : List (Obj × Nat)
deriving DecidableEq

/-- Look up the manager-array id registered for a group. -/
def lookupG2M (g2m : List (Obj × Nat)) (g : Obj) : Option Nat :=
  (g2m.find? (fun p => decide (p.1 = g))).map (fun p => p.2)

/-- `$clearSub$(group)`: for each manager in the group's list, remove the
group's edges; then delete the map entry and truncate the shared manager
array to length zero. -/
def clearSub (c : ContainerModel) (g : Obj) : ContainerModel :=
  match lookupG2M c.g2m g with
  | none => c
  | some aid =>
    let mids := (c.arrs.get? aid).getD []
    { mgrSubs := mids.foldl
        (fun ms mid => ms.set mid (unsubGroup ((ms.get? mid).getD []) g)) c.mgrSubs
      arrs := c.arrs.set aid []
      g2m := c.g2m.filter (fun p => decide (p.1 ≠ g)) }

/-- A JavaScript runtime value for the serializability verifier: a
primitive, `null`/`undefined`, or a reference into the heap. -/
inductive JSVal where
  | undefined
  | jsNull
  | bool (b : Bool)
  | num (n : Int)
  | str (s : JSStr)
  | ref (a : Nat)
deriving DecidableEq

/-- The datum behind a heap reference: a (possibly sparse) array, a plain
serializable-shaped object, a promise, a host node, a foreign class
instance (with its `canSerialize` custom-codec answer), a function, or a
store proxy wrapping a target. -/
inductive HeapData where
  | arr (elems : List (Option JSVal))
  | plain (fields : List (JSStr × JSVal))
  | promise
  | node
  | foreign (ctor : JSStr) (canSer : Bool)
  | funcObj (name : JSStr)
  | proxy (target : JSVal)
deriving DecidableEq

/-- The value heap together with the ambient `noSerializeSet` (identity
keyed). -/
structure Store where
  heap : List HeapData
  noSer : List Nat
deriving DecidableEq

/-- `unwrapProxy(value)`: follow the proxy target symbol once, if present. -/
def unwrapProxy (st : Store) (v : JSVal) : JSVal :=
  match v with
  | .ref a =>
      match st.heap.get? a with
      | some (.proxy t) => t
      | _ => v
  | _ => v

/-- `value == null`: `null` or `undefined`. -/
def nullish : JSVal → Bool
  | .undefined => true
  | .jsNull => true
  | _ => false

/-- `shouldSerialize(obj)`: objects and functions marked in
`noSerializeSet` are skipped; everything else is inspected. -/
def shouldSerialize (st : Store) (v : JSVal) : Bool :=
  match v with
  | .ref a => decide (a ∉ st.noSer)
  | _ => true

/-- Modelled from the spec: `canSerialize` (from the external serializer
registry, `../container/serializers`) answers true exactly for values a
custom codec is registered for; plain objects, arrays, promises, nodes and
primitives are not in the registry. -/
def canSerializeModel (st : Store) (v : JSVal) : Bool :=
  match v with
  | .ref a =>
      match st.heap.get? a with
      | some (.foreign _ cs) => cs
      | _ => false
  | _ => false

/-- The two verifier failure shapes: the dedicated sparse-array error
(`qError(QError_verifySerializable, ...)`) and the generic
"Value cannot be serialized" diagnostic (`createError(message)`). -/
inductive VerifyError where
  | holeError
  | cannotSerialize
deriving DecidableEq

/-- The assigned `(index, value)` entries of an array, ascending — what
`Array.prototype.forEach` visits (holes are skipped). -/
def enumFrom (i : Nat) : List (Option JSVal) → List (Nat × JSVal)
  | [] => []
  | none :: rest => enumFrom (i + 1) rest
  | some v :: rest => (i, v) :: enumFrom (i + 1) rest

/-- The visited set of one verification pass (`seen`), a JavaScript `Set`
(SameValueZero: primitives by value, references by identity). -/
abbrev Seen := List JSVal

/-- Sequential verification of the property values of a plain object,
threading the visited set; `none` is fuel exhaustion, errors propagate. -/
def verifyList (f : JSVal → Seen → Option (Except VerifyError Seen)) :
    List JSVal → Seen → Option (Except VerifyError Seen)
  | [], seen => some (.ok seen)
  | v :: rest, seen =>
      match f v seen with
      | none => none
      | some (.error e) => some (.error e)
      | some (.ok s2) => verifyList f rest s2

/-- The `forEach` body over an array's assigned entries: a gap
(`i !== expectIndex`) raises the hole error before the element (or any
later element) is verified; otherwise elements verify in order. -/
def verifyArrList (f : JSVal → Seen → Option (Except VerifyError Seen)) :
    Nat → List (Nat × JSVal) → Seen → Option (Except VerifyError Seen)
  | _, [], seen => some (.ok seen)
  | expect, (i, v) :: rest, seen =>
      if i ≠ expect then some (.error .holeError)
      else
        match f v seen with
        | none => none
        | some (.error e) => some (.error e)
        | some (.ok s2) => verifyArrList f (i + 1) rest s2

/-- `_verifySerializable(value, seen)`, with explicit recursion fuel
(`none` = fuel exhausted; the source recurses unboundedly and relies on
the visited set for termination, proved below).  On success the grown
visited set is returned; the source returns the original `value`. -/
def verifyFuel (st : Store) : Nat → JSVal → Seen → Option (Except VerifyError Seen)
  | 0, _, _ => none
  | fuel + 1, v, seen =>
    let u := unwrapProxy st v
    if nullish u then some (.ok seen)
    else if !shouldSerialize st u then some (.ok seen)
    else if u ∈ seen then some (.ok seen)
    else
      let s1 := u :: seen
      if canSerializeModel st u then some (.ok s1)
      else
        match u with
        | .bool _ => some (.ok s1)
        | .str _ => some (.ok s1)
        | .num _ => some (.ok s1)
        | .ref a =>
          match st.heap.get? a with
          | some .promise => some (.ok s1)
          | some .node => some (.ok s1)
          | some (.arr elems) =>
              verifyArrList (fun w s => verifyFuel st fuel w s) 0 (enumFrom 0 elems) s1
          | some (.plain fields) =>
              verifyList (fun w s => verifyFuel st fuel w s) (fields.map Prod.snd) s1
          | _ => some (.error .cannotSerialize)
        | _ => some (.error .cannotSerialize)

/-- `verifySerializable(value)`: run the recursive check with a fresh
visited set, returning the input value itself on success.  The fuel
`st.heap.length + 1` is shown sufficient below. -/
def verifySerializable (st : Store) (v : JSVal) : Option (Except VerifyError JSVal) :=
  (verifyFuel st (st.heap.length + 1) v []).map (fun r => r.map (fun _ => v))

instance {e a : Type} [DecidableEq e] [DecidableEq a] : DecidableEq (Except e a) := fun x y =>
  match x, y with
  | .ok u, .ok v =>
      if h : u = v then isTrue (by rw [h]) else isFalse (by intro hc; cases hc; exact h rfl)
  | .error u, .error v =>
      if h : u = v then isTrue (by rw [h]) else isFalse (by intro hc; cases hc; exact h rfl)
  | .ok _, .error _ => isFalse (by intro hc; cases hc)
  | .error _, .ok _ => isFalse (by intro hc; cases hc)

/-- Join a token list with single spaces (the shape every record built by
`serializeSubscription` has). -/
def joinSp : List JSStr → JSStr
  | [] => []
  | [t] => t
  | t :: ts => t ++ spaceChar :: joinSp ts

theorem splitSpace_ne_nil (s : JSStr) : splitSpace s ≠ [] := by
  induction s with
  | nil => simp [splitSpace]
  | cons c rest ih =>
      simp only [splitSpace]
      split
      · simp
      · cases h : splitSpace rest with
        | nil => simp
        | cons t ts => simp

theorem splitSpace_no_space (s : JSStr) (h : spaceChar ∉ s) : splitSpace s = [s] := by
  induction s with
  | nil => rfl
  | cons c rest ih =>
      simp only [List.mem_cons, not_or] at h
      have hc : ¬(c = spaceChar) := fun hh => h.1 hh.symm
      simp only [splitSpace, if_neg hc, ih h.2]

theorem splitSpace_append (a b : JSStr) (h : spaceChar ∉ a) :
    splitSpace (a ++ spaceChar :: b) = a :: splitSpace b := by
  induction a with
  | nil => simp [splitSpace]
  | cons c rest ih =>
      simp only [List.mem_cons, not_or] at h
      have hc : ¬(c = spaceChar) := fun hh => h.1 hh.symm
      simp only [List.cons_append, splitSpace, if_neg hc, List.append_eq, ih h.2]

theorem splitSpace_joinSp (toks : List JSStr) (hne : toks ≠ [])
    (h : ∀ t ∈ toks, spaceChar ∉ t) : splitSpace (joinSp toks) = toks := by
  induction toks with
  | nil => exact absurd rfl hne
  | cons t ts ih =>
      cases ts with
      | nil => exact splitSpace_no_space t (h t (by simp))
      | cons u us =>
          have h1 : spaceChar ∉ t := h t (by simp)
          show splitSpace (t ++ spaceChar :: joinSp (u :: us)) = _
          rw [splitSpace_append _ _ h1, ih (by simp) (fun x hx => h x (by simp [hx]))]

/-- A reference all of whose codec requirements hold: the id resolver
yields a nonempty, space-free identifier that the object resolver inverts. -/
def GoodRef (getObjId : Obj → Option JSStr) (getObject : JSStr → Option Obj) (o : Obj) : Prop :=
  ∃ s, getObjId o = some s ∧ s ≠ [] ∧ spaceChar ∉ s ∧ getObject s = some o

/-- A key a record can carry faithfully: absent, or nonempty with a
space-free encoding that decodes back to itself. -/
def GoodKey (enc : JSStr → JSStr) (dec : JSStr → Except Unit JSStr) : Option JSStr → Prop
  | none => True
  | some k => k ≠ [] ∧ spaceChar ∉ enc k ∧ dec (enc k) = .ok k

/-- The side conditions under which an edge survives the encode/decode
round trip: all references resolve to nonempty space-free identifiers
inverted by `getObject`, the host is not a stale descriptor, the key (if
any) is nonempty and its encoding space-free and decodable, a variant-B
property contains no space, and a variant-C target is an object
reference. -/
def C1Hyp (enc : JSStr → JSStr) (dec : JSStr → Except Unit JSStr)
    (getObjId : Obj → Option JSStr) (getObject : JSStr → Option Obj)
    (isDescNoEl : Obj → Bool) : Subscriptions → Prop
  | .a h key => GoodRef getObjId getObject h ∧ isDescNoEl h = false ∧ GoodKey enc dec key
  | .b _ h s e p key => GoodRef getObjId getObject h ∧ isDescNoEl h = false ∧
      GoodKey enc dec key ∧ GoodRef getObjId getObject s ∧ GoodRef getObjId getObject e ∧
      spaceChar ∉ p
  | .c _ h s e key => GoodRef getObjId getObject h ∧ isDescNoEl h = false ∧
      GoodKey enc dec key ∧ GoodRef getObjId getObject s ∧
      ∃ o, e = .inl o ∧ GoodRef getObjId getObject o

/-- Claim C1 (amended): for every subscription edge with tag 0-4 whose
references resolve to nonempty space-free identifiers inverted by
`getObject`, whose host is not a stale descriptor, whose key (if present)
is nonempty with a space-free invertible encoding, whose variant-B
property contains no space, and whose variant-C target is an object
reference, encoding with `serializeSubscription` and decoding with
`parseSubscription` yields the array form of the original edge. -/
theorem c1_roundTrip_amended (enc : JSStr → JSStr) (dec : JSStr → Except Unit JSStr)
    (getObjId : Obj → Option JSStr) (getObject : JSStr → Option Obj)
    (isDescNoEl : Obj → Bool) (sub : Subscriptions)
    (hyp : C1Hyp enc dec getObjId getObject isDescNoEl sub) :
    ∃ r, serializeSubscription enc getObjId sub = .ok (some r) ∧
      parseSubscription isDescNoEl dec getObject r = .ok (some sub.toArr) := by
  cases sub with
  | a h key =>
      obtain ⟨⟨hid, hga, hne, hsp, hinv⟩, hd, hk⟩ := hyp
      cases key with
      | none =>
          refine ⟨joinSp [natToJSStr 0, hid], ?_, ?_⟩
          · simp [serializeSubscription, Subscriptions.group, Subscriptions.tag, truthyOpt,
              hga, hne, withKeyTok, joinSp]
          · unfold parseSubscription
            rw [splitSpace_joinSp _ (by simp) (by
              intro t ht
              simp only [List.mem_cons, List.not_mem_nil, or_false] at ht
              rcases ht with rfl | rfl
              · decide
              · exact hsp)]
            have h0 : parseIntModel (natToJSStr 0) = some (0 : Int) := by decide
            simp [hinv, hd, safeDecode, Subscriptions.toArr, optKeyP, h0]
      | some k =>
          obtain ⟨hkne, hksp, hkdec⟩ := hk
          refine ⟨joinSp [natToJSStr 0, hid, enc k], ?_, ?_⟩
          · simp [serializeSubscription, Subscriptions.group, Subscriptions.tag, truthyOpt,
              hga, hne, withKeyTok, hkne, joinSp]
          · unfold parseSubscription
            rw [splitSpace_joinSp _ (by simp) (by
              intro t ht
              simp only [List.mem_cons, List.not_mem_nil, or_false] at ht
              rcases ht with rfl | rfl | rfl
              · decide
              · exact hsp
              · exact hksp)]
            have h0 : parseIntModel (natToJSStr 0) = some (0 : Int) := by decide
            simp [hinv, hd, safeDecode, hkdec, Subscriptions.toArr, optKeyP, h0, Except.map]
  | b t2 h s e p key =>
      obtain ⟨⟨hid, hga, hne, hsp, hinv⟩, hd, hk, ⟨sid, sga, sne, ssp, sinv⟩,
        ⟨eid, ega, ene, esp, einv⟩, hpsp⟩ := hyp
      cases key with
      | none =>
          refine ⟨joinSp [natToJSStr (if t2 then 2 else 1), hid, sid, eid, p], ?_, ?_⟩
          · cases t2 <;>
              simp [serializeSubscription, Subscriptions.group, Subscriptions.tag, truthyOpt,
                hga, hne, sga, sne, ega, withKeyTok, joinSp, List.append_assoc]
          · unfold parseSubscription
            rw [splitSpace_joinSp _ (by simp) (by
              intro t ht
              simp only [List.mem_cons, List.not_mem_nil, or_false] at ht
              rcases ht with rfl | rfl | rfl | rfl | rfl
              · cases t2 <;> decide
              · exact hsp
              · exact ssp
              · exact esp
              · exact hpsp)]
            cases t2 with
            | false =>
              have h0 : parseIntModel (natToJSStr 1) = some (1 : Int) := by decide
              have h2 : tyLE (some (1 : Int)) 2 = true := by decide
              have hz : ((some (1 : Int) = some 0) = False) := by decide
              simp [hinv, hd, sinv, einv, safeDecode, Subscriptions.toArr, optKeyP, objToP, h0, h2, hz]
            | true =>
              have h0 : parseIntModel (natToJSStr 2) = some (2 : Int) := by decide
              have h2 : tyLE (some (2 : Int)) 2 = true := by decide
              have hz : ((some (2 : Int) = some 0) = False) := by decide
              simp [hinv, hd, sinv, einv, safeDecode, Subscriptions.toArr, optKeyP, objToP, h0, h2, hz]
      | some k =>
          obtain ⟨hkne, hksp, hkdec⟩ := hk
          refine ⟨joinSp [natToJSStr (if t2 then 2 else 1), hid, sid, eid, p, enc k], ?_, ?_⟩
          · cases t2 <;>
              simp [serializeSubscription, Subscriptions.group, Subscriptions.tag, truthyOpt,
                hga, hne, sga, sne, ega, withKeyTok, hkne, joinSp, List.append_assoc]
          · unfold parseSubscription
            rw [splitSpace_joinSp _ (by simp) (by
              intro t ht
              simp only [List.mem_cons, List.not_mem_nil, or_false] at ht
              rcases ht with rfl | rfl | rfl | rfl | rfl | rfl
              · cases t2 <;> decide
              · exact hsp
              · exact ssp
              · exact esp
              · exact hpsp
              · exact hksp)]
            cases t2 with
            | false =>
              have h0 : parseIntModel (natToJSStr 1) = some (1 : Int) := by decide
              have h2 : tyLE (some (1 : Int)) 2 = true := by decide
              have hz : ((some (1 : Int) = some 0) = False) := by decide
              simp [hinv, hd, sinv, einv, safeDecode, hkdec, Except.map, Subscriptions.toArr, optKeyP, objToP, h0, h2, hz]
            | true =>
              have h0 : parseIntModel (natToJSStr 2) = some (2 : Int) := by decide
              have h2 : tyLE (some (2 : Int)) 2 = true := by decide
              have hz : ((some (2 : Int) = some 0) = False) := by decide
              simp [hinv, hd, sinv, einv, safeDecode, hkdec, Except.map, Subscriptions.toArr, optKeyP, objToP, h0, h2, hz]
  | c t4 h s e key =>
      obtain ⟨⟨hid, hga, hne, hsp, hinv⟩, hd, hk, ⟨sid, sga, sne, ssp, sinv⟩,
        o, rfl, ⟨oid, oga, one, osp, oinv⟩⟩ := hyp
      cases key with
      | none =>
          refine ⟨joinSp [natToJSStr (if t4 then 4 else 3), hid, sid, oid], ?_, ?_⟩
          · cases t4 <;>
              simp [serializeSubscription, Subscriptions.group, Subscriptions.tag, truthyOpt,
                hga, hne, sga, sne, oga, withKeyTok, joinSp, List.append_assoc]
          · unfold parseSubscription
            rw [splitSpace_joinSp _ (by simp) (by
              intro t ht
              simp only [List.mem_cons, List.not_mem_nil, or_false] at ht
              rcases ht with rfl | rfl | rfl | rfl
              · cases t4 <;> decide
              · exact hsp
              · exact ssp
              · exact osp)]
            cases t4 with
            | false =>
              have h0 : parseIntModel (natToJSStr 3) = some (3 : Int) := by decide
              have h2 : tyLE (some (3 : Int)) 2 = false := by decide
              have h4 : tyLE (some (3 : Int)) 4 = true := by decide
              have hz : ((some (3 : Int) = some 0) = False) := by decide
              simp [hinv, hd, sinv, oinv, safeDecode, Subscriptions.toArr, optKeyP, objToP, elmP, h0, h2, h4, hz]
            | true =>
              have h0 : parseIntModel (natToJSStr 4) = some (4 : Int) := by decide
              have h2 : tyLE (some (4 : Int)) 2 = false := by decide
              have h4 : tyLE (some (4 : Int)) 4 = true := by decide
              have hz : ((some (4 : Int) = some 0) = False) := by decide
              simp [hinv, hd, sinv, oinv, safeDecode, Subscriptions.toArr, optKeyP, objToP, elmP, h0, h2, h4, hz]
      | some k =>
          obtain ⟨hkne, hksp, hkdec⟩ := hk
          refine ⟨joinSp [natToJSStr (if t4 then 4 else 3), hid, sid, oid, enc k], ?_, ?_⟩
          · cases t4 <;>
              simp [serializeSubscription, Subscriptions.group, Subscriptions.tag, truthyOpt,
                hga, hne, sga, sne, oga, withKeyTok, hkne, joinSp, List.append_assoc]
          · unfold parseSubscription
            rw [splitSpace_joinSp _ (by simp) (by
              intro t ht
              simp only [List.mem_cons, List.not_mem_nil, or_false] at ht
              rcases ht with rfl | rfl | rfl | rfl | rfl
              · cases t4 <;> decide
              · exact hsp
              · exact ssp
              · exact osp
              · exact hksp)]
            cases t4 with
            | false =>
              have h0 : parseIntModel (natToJSStr 3) = some (3 : Int) := by decide
              have h2 : tyLE (some (3 : Int)) 2 = false := by decide
              have h4 : tyLE (some (3 : Int)) 4 = true := by decide
              have hz : ((some (3 : Int) = some 0) = False) := by decide
              simp [hinv, hd, sinv, oinv, safeDecode, hkdec, Except.map, Subscriptions.toArr, optKeyP, objToP, elmP, h0, h2, h4, hz]
            | true =>
              have h0 : parseIntModel (natToJSStr 4) = some (4 : Int) := by decide
              have h2 : tyLE (some (4 : Int)) 2 = false := by decide
              have h4 : tyLE (some (4 : Int)) 4 = true := by decide
              have hz : ((some (4 : Int) = some 0) = False) := by decide
              simp [hinv, hd, sinv, oinv, safeDecode, hkdec, Except.map, Subscriptions.toArr, optKeyP, objToP, elmP, h0, h2, h4, hz]

/-- Identity model of `encodeURI` for concrete instances (the keys used in
the concrete records below contain no character `encodeURI` escapes). -/
def encId : JSStr → JSStr := fun s => s

/-- Identity model of `decodeURI` for concrete instances. -/
def decOk : JSStr → Except Unit JSStr := fun s => .ok s

/-- A concrete `getObjId` resolver: objects 7, 8, 9 have ids h, s, e. -/
def gidW : Obj → Option JSStr := fun o =>
  if o = 7 then some ['h'] else if o = 8 then some ['s'] else if o = 9 then some ['e'] else none

/-- The inverse concrete `getObject` resolver. -/
def gobW : JSStr → Option Obj := fun s =>
  if s = ['h'] then some 7 else if s = ['s'] then some 8 else if s = ['e'] then some 9 else none

/-- A concrete `getObject` resolver that only resolves the host id h. -/
def gobHostOnly : JSStr → Option Obj := fun s => if s = ['h'] then some 7 else none

/-- A variant-C edge whose target is a literal string identifier. -/
def subStrTarget : Subscriptions := .c false 7 8 (.inr ['n']) none

/-- The record `subStrTarget` encodes to: `3 h s n`. -/
def recStrTarget : JSStr := ['3', spaceChar, 'h', spaceChar, 's', spaceChar, 'n']

/-- Claim C1 (counterexample): a tag-3 edge whose target is the literal
string identifier n — every object reference in the edge (host 7,
signal 8) is resolvable, and `gobW` inverts `gidW` — encodes to `3 h s n`,
but decoding re-resolves the literal token n through `getObject` and
yields an array that is not structurally equal to the original edge
(target becomes `undefined`, not the string n). -/
theorem c1_counterexample :
    serializeSubscription encId gidW subStrTarget = .ok (some recStrTarget) ∧
    parseSubscription (fun _ => false) decOk gobW recStrTarget =
      .ok (some [PVal.num 3, PVal.obj 7, PVal.obj 8, PVal.undefined, PVal.undefined]) ∧
    [PVal.num 3, PVal.obj 7, PVal.obj 8, PVal.undefined, PVal.undefined] ≠ subStrTarget.toArr := by
  refine ⟨by decide, by decide, by decide⟩

/-- Claim C1 (witness of the amended theorem): the edge `(0, host 7, key k1)`
round-trips through the concrete resolver pair. -/
theorem c1_roundTrip_amended_witness :
    ∃ r, serializeSubscription encId gidW (.a 7 (some ['k', '1'])) = .ok (some r) ∧
      parseSubscription (fun _ => false) decOk gobW r =
        .ok (some (Subscriptions.a 7 (some ['k', '1'])).toArr) :=
  c1_roundTrip_amended encId decOk gidW gobW (fun _ => false) (.a 7 (some ['k', '1']))
    ⟨⟨['h'], by decide, by decide, by decide, by decide⟩, rfl, by decide, by decide, by decide⟩

/-- Claim C10: a tag-0 edge whose key is the empty string is falsy at the
`if (key)` check, so `serializeSubscription` emits no key token — the
record is exactly the two tokens tag and host id — and decoding yields an
edge whose key is `undefined`, which differs from the array form of the
original edge: the round trip is not the identity for empty-string keys. -/
theorem c10_emptyKey (enc : JSStr → JSStr) (dec : JSStr → Except Unit JSStr)
    (getObjId : Obj → Option JSStr) (getObject : JSStr → Option Obj)
    (isDescNoEl : Obj → Bool) (h : Obj) (hid : JSStr)
    (hga : getObjId h = some hid) (hne : hid ≠ []) (hsp : spaceChar ∉ hid)
    (hinv : getObject hid = some h) (hd : isDescNoEl h = false) :
    serializeSubscription enc getObjId (.a h (some [])) = .ok (some (joinSp [natToJSStr 0, hid])) ∧
    splitSpace (joinSp [natToJSStr 0, hid]) = [natToJSStr 0, hid] ∧
    parseSubscription isDescNoEl dec getObject (joinSp [natToJSStr 0, hid]) =
      .ok (some [PVal.num 0, PVal.obj h, PVal.undefined]) ∧
    [PVal.num 0, PVal.obj h, PVal.undefined] ≠ (Subscriptions.a h (some [])).toArr := by
  have hsplit : splitSpace (joinSp [natToJSStr 0, hid]) = [natToJSStr 0, hid] :=
    splitSpace_joinSp _ (by simp) (by
      intro t ht
      simp only [List.mem_cons, List.not_mem_nil, or_false] at ht
      rcases ht with rfl | rfl
      · decide
      · exact hsp)
  refine ⟨?_, hsplit, ?_, ?_⟩
  · simp [serializeSubscription, Subscriptions.group, Subscriptions.tag, truthyOpt, hga, hne,
      withKeyTok, joinSp]
  · unfold parseSubscription
    rw [hsplit]
    have h0 : parseIntModel (natToJSStr 0) = some (0 : Int) := by decide
    simp [hinv, hd, safeDecode, h0]
  · simp [Subscriptions.toArr, optKeyP]

/-- Claim C10 (witness): concrete instantiation with host 7, id h. -/
theorem c10_emptyKey_witness :
    serializeSubscription encId gidW (.a 7 (some [])) =
      .ok (some (joinSp [natToJSStr 0, ['h']])) ∧
    splitSpace (joinSp [natToJSStr 0, ['h']]) = [natToJSStr 0, ['h']] ∧
    parseSubscription (fun _ => false) decOk gobW (joinSp [natToJSStr 0, ['h']]) =
      .ok (some [PVal.num 0, PVal.obj 7, PVal.undefined]) ∧
    [PVal.num 0, PVal.obj 7, PVal.undefined] ≠ (Subscriptions.a 7 (some [])).toArr :=
  c10_emptyKey encId decOk gidW gobW (fun _ => false) 7 ['h']
    (by decide) (by decide) (by decide) (by decide) rfl

/-- Claim C5 (amended): an unresolvable or empty (falsy) host id, or — for
variants B and C — an unresolvable or empty signal id, makes
`serializeSubscription` return `undefined` (absent); but an unresolvable
target reference (variant B, or variant C with an object target) makes
`must` throw: serialization fails with an error instead of returning
`undefined`. -/
theorem c5_absent_amended (enc : JSStr → JSStr) (getObjId : Obj → Option JSStr) :
    (∀ sub : Subscriptions, truthyOpt (getObjId sub.group) = none →
        serializeSubscription enc getObjId sub = .ok none) ∧
    (∀ (t2 : Bool) (h s e : Obj) (p : JSStr) (k : Option JSStr),
        truthyOpt (getObjId s) = none →
        serializeSubscription enc getObjId (.b t2 h s e p k) = .ok none) ∧
    (∀ (t4 : Bool) (h s : Obj) (e : Obj ⊕ JSStr) (k : Option JSStr),
        truthyOpt (getObjId s) = none →
        serializeSubscription enc getObjId (.c t4 h s e k) = .ok none) ∧
    (∀ (t2 : Bool) (h s e : Obj) (p : JSStr) (k : Option JSStr) (hid sid : JSStr),
        truthyOpt (getObjId h) = some hid → truthyOpt (getObjId s) = some sid →
        getObjId e = none →
        serializeSubscription enc getObjId (.b t2 h s e p k) = .error ()) ∧
    (∀ (t4 : Bool) (h s o : Obj) (k : Option JSStr) (hid sid : JSStr),
        truthyOpt (getObjId h) = some hid → truthyOpt (getObjId s) = some sid →
        getObjId o = none →
        serializeSubscription enc getObjId (.c t4 h s (.inl o) k) = .error ()) := by
  refine ⟨?_, ?_, ?_, ?_, ?_⟩
  · intro sub hh
    unfold serializeSubscription
    rw [hh]
  · intro t2 h s e p k hs
    unfold serializeSubscription
    cases hg : truthyOpt (getObjId (Subscriptions.b t2 h s e p k).group) <;>
      simp [hs]
  · intro t4 h s e k hs
    unfold serializeSubscription
    cases hg : truthyOpt (getObjId (Subscriptions.c t4 h s e k).group) <;>
      simp [hs]
  · intro t2 h s e p k hid sid hh hs he
    unfold serializeSubscription
    simp [Subscriptions.group, hh, hs, he]
  · intro t4 h s o k hid sid hh hs ho
    unfold serializeSubscription
    simp [Subscriptions.group, hh, hs, ho]

/-- Claim C5 (witness): concrete instances of each conjunct — an
unresolvable host gives absent, an unresolvable signal gives absent, and
an unresolvable variant-B target throws. -/
theorem c5_absent_amended_witness :
    serializeSubscription encId gidW (.a 99 none) = .ok none ∧
    serializeSubscription encId gidW (.b false 7 99 9 ['p'] none) = .ok none ∧
    serializeSubscription encId gidW (.b false 7 8 99 ['p'] none) = .error () := by
  refine ⟨(c5_absent_amended encId gidW).1 (.a 99 none) (by decide),
    (c5_absent_amended encId gidW).2.1 false 7 99 9 ['p'] none (by decide),
    (c5_absent_amended encId gidW).2.2.2.1 false 7 8 99 ['p'] none ['h'] ['s']
      (by decide) (by decide) (by decide)⟩

/-- Claim C5 (counterexample): a variant-B edge whose host and signal
resolve but whose target reference does not — the claim says the edge
should encode to "absent" (`undefined`); instead `must` throws, so
`serializeSubscription` errors rather than returning `undefined`. -/
theorem c5_counterexample :
    serializeSubscription encId gidW (.b false 7 8 99 ['p'] none) = .error () ∧
    Except.error () ≠ (Except.ok none : Except Unit (Option JSStr)) := by
  refine ⟨by decide, by decide⟩

/-- Claim C6 (amended): during decode, only an unresolved host reference
(token 1) drops the edge to `undefined`; unresolved signal or target
references do not drop the edge. -/
theorem c6_staleHost_amended (isDescNoEl : Obj → Bool) (dec : JSStr → Except Unit JSStr)
    (getObject : JSStr → Option Obj) (s : JSStr) (p0 p1 : JSStr) (rest : List JSStr)
    (hsplit : splitSpace s = p0 :: p1 :: rest)
    (hhost : getObject p1 = none) :
    parseSubscription isDescNoEl dec getObject s = .ok none := by
  unfold parseSubscription
  rw [hsplit]
  simp [hhost]

/-- Claim C6 (witness): the record `3 h s n` with a resolver that knows no
id at all decodes to `undefined` (host unresolved). -/
theorem c6_staleHost_amended_witness :
    parseSubscription (fun _ => false) decOk (fun _ => none) recStrTarget = .ok none :=
  c6_staleHost_amended (fun _ => false) decOk (fun _ => none) recStrTarget
    ['3'] ['h'] [['s'], ['n']] (by decide) (by decide)

/-- Claim C6 (counterexample): the well-formed record `3 h s n` whose host
id h resolves but whose signal id s and target id n do not — the claim
says the edge is dropped (`undefined`); instead `parseSubscription`
returns an edge with `undefined` in the unresolved positions. -/
theorem c6_counterexample :
    parseSubscription (fun _ => false) decOk gobHostOnly recStrTarget =
      .ok (some [PVal.num 3, PVal.obj 7, PVal.undefined, PVal.undefined, PVal.undefined]) ∧
    (Except.ok (some [PVal.num 3, PVal.obj 7, PVal.undefined, PVal.undefined, PVal.undefined]) :
      Except Unit (Option (List PVal))) ≠ .ok none := by
  refine ⟨by decide, by decide⟩

/-- The `$addSub$` dedup predicate: a stored variant-A edge equal on
`(group, key)`. -/
def isMatchingA (h : Obj) (k : Option JSStr) : Subscriptions → Bool
  | .a g kk => decide (g = h) && decide (kk = k)
  | _ => false

theorem addSub_a_eq (subs : List Subscriptions) (h : Obj) (k : Option JSStr) :
    addSub subs (.a h) k =
      if subs.any (isMatchingA h k) then subs else subs ++ [.a h k] := by
  show (if subs.any (fun s =>
      match s with
      | .a g kk => decide (g = h) && decide (kk = k)
      | _ => false) = true then subs else subs ++ [Subscriber.withKey (.a h) k]) = _
  have : (fun s : Subscriptions =>
      match s with
      | .a g kk => decide (g = h) && decide (kk = k)
      | _ => false) = isMatchingA h k := by
    funext s
    cases s <;> rfl
  rw [this]
  rfl

/-- Claim C2: adding a variant-A edge twice through `$addSub$` with the
same group and key is idempotent — the second add is a no-op — and from a
state with no matching `(group, key)` variant-A edge it leaves exactly one
such edge; variant B and C edges are never deduplicated: adding a
structurally identical edge twice stores it twice. -/
theorem c2_addSub_dedup :
    (∀ (subs : List Subscriptions) (h : Obj) (k : Option JSStr),
        addSub (addSub subs (.a h) k) (.a h) k = addSub subs (.a h) k) ∧
    (∀ (subs : List Subscriptions) (h : Obj) (k : Option JSStr),
        (subs.filter (isMatchingA h k)).length = 0 →
        ((addSub (addSub subs (.a h) k) (.a h) k).filter (isMatchingA h k)).length = 1) ∧
    (∀ (subs : List Subscriptions) (t2 : Bool) (h s e : Obj) (p : JSStr) (k : Option JSStr),
        addSub (addSub subs (.b t2 h s e p) k) (.b t2 h s e p) k =
          subs ++ [.b t2 h s e p k, .b t2 h s e p k]) ∧
    (∀ (subs : List Subscriptions) (t4 : Bool) (h s : Obj) (e : Obj ⊕ JSStr)
        (k : Option JSStr),
        addSub (addSub subs (.c t4 h s e) k) (.c t4 h s e) k =
          subs ++ [.c t4 h s e k, .c t4 h s e k]) := by
  have hone : ∀ (subs : List Subscriptions) (h : Obj) (k : Option JSStr),
      addSub (addSub subs (.a h) k) (.a h) k = addSub subs (.a h) k := by
    intro subs h k
    by_cases hany : subs.any (isMatchingA h k)
    · simp [addSub_a_eq, hany]
    · have h1 : addSub subs (.a h) k = subs ++ [.a h k] := by
        rw [addSub_a_eq, if_neg hany]
      have h2 : (subs ++ [Subscriptions.a h k]).any (isMatchingA h k) = true := by
        simp [List.any_append, isMatchingA]
      rw [h1, addSub_a_eq, if_pos h2]
  refine ⟨hone, ?_, ?_, ?_⟩
  · intro subs h k hcount
    have hnil : subs.filter (isMatchingA h k) = [] := List.length_eq_zero.mp hcount
    have hany : subs.any (isMatchingA h k) = false := by
      rw [List.any_eq_false]
      exact fun x hx => List.filter_eq_nil_iff.mp hnil x hx
    rw [hone]
    rw [addSub_a_eq, if_neg (by simp [hany])]
    simp [List.filter_append, hnil, isMatchingA]
  · intro subs t2 h s e p k
    show (addSub (subs ++ [Subscriber.withKey (.b t2 h s e p) k]) (.b t2 h s e p) k) = _
    show (subs ++ [Subscriber.withKey (.b t2 h s e p) k]) ++
      [Subscriber.withKey (.b t2 h s e p) k] = _
    simp [Subscriber.withKey]
  · intro subs t4 h s e k
    show (addSub (subs ++ [Subscriber.withKey (.c t4 h s e) k]) (.c t4 h s e) k) = _
    show (subs ++ [Subscriber.withKey (.c t4 h s e) k]) ++
      [Subscriber.withKey (.c t4 h s e) k] = _
    simp [Subscriber.withKey]

/-- Claim C2 (witness): concrete double adds — A deduplicates, B stores
twice. -/
theorem c2_addSub_dedup_witness :
    addSub (addSub [] (.a 7) (some ['k'])) (.a 7) (some ['k']) =
      addSub [] (.a 7) (some ['k']) ∧
    ((addSub (addSub [] (.a 7) (some ['k'])) (.a 7) (some ['k'])).filter
      (isMatchingA 7 (some ['k']))).length = 1 ∧
    addSub (addSub [] (.b false 7 8 9 ['p']) none) (.b false 7 8 9 ['p']) none =
      [.b false 7 8 9 ['p'] none, .b false 7 8 9 ['p'] none] :=
  ⟨c2_addSub_dedup.1 [] 7 (some ['k']),
   c2_addSub_dedup.2.1 [] 7 (some ['k']) (by decide),
   c2_addSub_dedup.2.2.1 [] false 7 8 9 ['p'] none⟩

/-- The notification condition exactly as Claim C3 states it: the edge's
trailing key is absent, or equals the notify key, or the notify key is
absent. -/
def claimKeepC3 (key : Option JSStr) (s : Subscriptions) : Bool :=
  decide (s.key = none) || decide (s.key = key) || decide (key = none)

/-- The notification condition the code implements: the notify key is
falsy (absent or empty), or the edge's trailing key is falsy, or the two
keys are equal. -/
def amendedKeepC3 (key : Option JSStr) (s : Subscriptions) : Bool :=
  !truthyB key || !truthyB s.key || decide (s.key = key)

/-- Claim C3 (amended): `$notifySubs$(k)` leaves the edge collection
unchanged and invokes `notifyChange`, in insertion order, exactly on the
stored edges whose trailing key is falsy (absent or empty), or equals k,
or when k itself is falsy — empty-string keys behave as absent on both
sides. -/
theorem c3_notify_amended (subs : List Subscriptions) (key : Option JSStr) :
    notifySubsOp subs key = (subs, subs.filter (amendedKeepC3 key)) := by
  unfold notifySubsOp notifySubs
  refine Prod.ext rfl ?_
  show subs.filter _ = subs.filter _
  apply List.filter_congr
  intro s _
  cases hk : truthyB key <;> cases hs : truthyB s.key <;>
    simp [amendedKeepC3, hk, hs, decide_not]

/-- Claim C3 (counterexample): with notify key a and a single stored edge
whose trailing key is the empty string, the code invokes `notifyChange` on
the edge (an empty key is falsy), although the claim's condition — key
absent, or equal to a, or notify key absent — holds for no stored edge,
so the claim predicts zero invocations. -/
theorem c3_counterexample :
    notifySubs [Subscriptions.a 7 (some [])] (some ['a']) = [Subscriptions.a 7 (some [])] ∧
    List.filter (claimKeepC3 (some ['a'])) [Subscriptions.a 7 (some [])] = [] := by
  refine ⟨by decide, by decide⟩

/-- Claim C3 (witness): a mixed collection under notify key k keeps the
keyless edge and the matching-key edge, drops the different-key edge, and
leaves the collection unchanged. -/
theorem c3_notify_amended_witness :
    notifySubsOp [Subscriptions.a 1 none, Subscriptions.a 2 (some ['k']),
        Subscriptions.a 3 (some ['x'])] (some ['k']) =
      ([Subscriptions.a 1 none, Subscriptions.a 2 (some ['k']),
        Subscriptions.a 3 (some ['x'])],
       List.filter (amendedKeepC3 (some ['k']))
         [Subscriptions.a 1 none, Subscriptions.a 2 (some ['k']),
          Subscriptions.a 3 (some ['x'])]) :=
  c3_notify_amended [Subscriptions.a 1 none, Subscriptions.a 2 (some ['k']),
    Subscriptions.a 3 (some ['x'])] (some ['k'])

theorem unsubGroup_eq_filter (subs : List Subscriptions) (g : Obj) :
    unsubGroup subs g = subs.filter (fun s => decide (s.group ≠ g)) := by
  induction subs with
  | nil => rfl
  | cons s rest ih =>
      simp only [unsubGroup, List.filter_cons]
      by_cases hs : s.group = g
      · simp [hs, ih]
      · simp [hs, ih]

theorem unsubGroup_idem (l : List Subscriptions) (g : Obj) :
    unsubGroup (unsubGroup l g) g = unsubGroup l g := by
  simp [unsubGroup_eq_filter, List.filter_filter]

theorem unsubGroup_no_group (l : List Subscriptions) (g : Obj) (s : Subscriptions)
    (hs : s ∈ unsubGroup l g) : s.group ≠ g := by
  rw [unsubGroup_eq_filter] at hs
  simpa using (List.mem_filter.mp hs).2

theorem unsubGroup_eq_self (l : List Subscriptions) (g : Obj)
    (h : ∀ s ∈ l, s.group ≠ g) : unsubGroup l g = l := by
  rw [unsubGroup_eq_filter]
  apply List.filter_eq_self.mpr
  intro s hs
  simpa using h s hs

theorem foldl_unsub_get? (g : Obj) (mids : List Nat) (ms : List (List Subscriptions)) (j : Nat) :
    (mids.foldl (fun acc mid => acc.set mid (unsubGroup ((acc.get? mid).getD []) g)) ms).get? j =
      if j ∈ mids then (ms.get? j).map (fun l => unsubGroup l g) else ms.get? j := by
  induction mids generalizing ms with
  | nil => simp
  | cons m rest ih =>
      simp only [List.foldl_cons]
      rw [ih]
      by_cases hlt : m < ms.length
      · have hset : ∀ n, (ms.set m (unsubGroup ((ms.get? m).getD []) g)).get? n =
            if m = n then some (unsubGroup ((ms.get? m).getD []) g) else ms.get? n :=
          fun n => List.get?_set_of_lt' _ _ hlt
        obtain ⟨v, hv⟩ : ∃ v, ms.get? m = some v := by
          rw [List.get?_eq_get hlt]
          exact ⟨_, rfl⟩
        by_cases hjr : j ∈ rest
        · rw [if_pos hjr, if_pos (by simp [hjr]), hset]
          by_cases hjm : m = j
          · subst hjm
            rw [if_pos rfl, hv]
            simp [hv, unsubGroup_idem]
          · rw [if_neg hjm]
        · rw [if_neg hjr, hset]
          by_cases hjm : m = j
          · subst hjm
            rw [if_pos rfl, if_pos (by simp), hv]
            simp [hv]
          · rw [if_neg hjm, if_neg (by simp [hjr]; omega)]
      · have hnone : ms.get? m = none := by
          rw [List.get?_eq_none]
          omega
        have hset : ms.set m (unsubGroup ((ms.get? m).getD []) g) = ms :=
          List.set_eq_of_length_le (by omega)
        rw [hset]
        by_cases hjr : j ∈ rest
        · rw [if_pos hjr, if_pos (by simp [hjr])]
        · rw [if_neg hjr]
          by_cases hjm : m = j
          · subst hjm
            rw [if_pos (by simp), hnone]
            rfl
          · rw [if_neg (by simp [hjr]; omega)]

theorem lookupG2M_filter_ne (g2m : List (Obj × Nat)) (g : Obj) :
    lookupG2M (g2m.filter (fun p => decide (p.1 ≠ g))) g = none := by
  unfold lookupG2M
  cases hf : (g2m.filter (fun p => decide (p.1 ≠ g))).find? (fun p => decide (p.1 = g)) with
  | none => rfl
  | some p =>
      have hmem := List.mem_filter.mp (List.mem_of_find?_eq_some hf)
      have hpred := List.find?_some hf
      simp only [decide_eq_true_eq] at hpred
      simp only [decide_eq_true_eq] at hmem
      exact absurd hpred hmem.2

theorem lookupG2M_mem (g2m : List (Obj × Nat)) (g : Obj) (aid : Nat)
    (h : lookupG2M g2m g = some aid) : ∃ p ∈ g2m, p.2 = aid := by
  unfold lookupG2M at h
  cases hf : g2m.find? (fun p => decide (p.1 = g)) with
  | none => rw [hf] at h; cases h
  | some p =>
      rw [hf] at h
      exact ⟨p, List.mem_of_find?_eq_some hf, by simpa using h⟩

/-- Claim C4: under the maintained registration invariant (every manager
holding an edge for group g is listed in g's manager array) and index
well-formedness, `$clearSub$(g)` removes from every manager exactly the
edges of group g (preserving the relative order of the rest), deletes g's
entry from the group index, truncates g's manager array to length zero,
and a subsequent `$notifySubs$` on any manager invokes the callback on no
edge of group g. -/
theorem c4_clearSub (c : ContainerModel) (g : Obj)
    (hwf : ∀ p ∈ c.g2m, p.2 < c.arrs.length)
    (hreg : ∀ mid : Nat, (∃ s ∈ (c.mgrSubs.get? mid).getD [], s.group = g) →
        ∃ aid, lookupG2M c.g2m g = some aid ∧ mid ∈ (c.arrs.get? aid).getD []) :
    (∀ mid : Nat, (clearSub c g).mgrSubs.get? mid =
        (c.mgrSubs.get? mid).map (fun l => unsubGroup l g)) ∧
    lookupG2M (clearSub c g).g2m g = none ∧
    (∀ aid : Nat, lookupG2M c.g2m g = some aid → (clearSub c g).arrs.get? aid = some []) ∧
    (∀ (mid : Nat) (key : Option JSStr) (s : Subscriptions),
        s ∈ notifySubs (((clearSub c g).mgrSubs.get? mid).getD []) key → s.group ≠ g) := by
  have hmain : ∀ mid : Nat, (clearSub c g).mgrSubs.get? mid =
      (c.mgrSubs.get? mid).map (fun l => unsubGroup l g) := by
    intro mid
    cases hl : lookupG2M c.g2m g with
    | none =>
        have hceq : clearSub c g = c := by
          unfold clearSub
          rw [hl]
        rw [hceq]
        cases hm : c.mgrSubs.get? mid with
        | none => rfl
        | some l =>
            have hng : ∀ s ∈ l, s.group ≠ g := by
              intro s hs hg
              obtain ⟨aid, hl2, _⟩ := hreg mid ⟨s, by rw [hm]; exact hs, hg⟩
              rw [hl] at hl2
              cases hl2
            simp [unsubGroup_eq_self l g hng]
    | some aid =>
        have hceq : (clearSub c g).mgrSubs =
            ((c.arrs.get? aid).getD []).foldl
              (fun acc mid => acc.set mid (unsubGroup ((acc.get? mid).getD []) g)) c.mgrSubs := by
          unfold clearSub
          rw [hl]
        rw [hceq, foldl_unsub_get?]
        by_cases hmem : mid ∈ (c.arrs.get? aid).getD []
        · rw [if_pos hmem]
        · rw [if_neg hmem]
          cases hm : c.mgrSubs.get? mid with
          | none => rfl
          | some l =>
              have hng : ∀ s ∈ l, s.group ≠ g := by
                intro s hs hg
                obtain ⟨aid2, hl2, hmem2⟩ := hreg mid ⟨s, by rw [hm]; exact hs, hg⟩
                rw [hl] at hl2
                cases hl2
                exact hmem hmem2
              simp [unsubGroup_eq_self l g hng]
  refine ⟨hmain, ?_, ?_, ?_⟩
  · cases hl : lookupG2M c.g2m g with
    | none =>
        have hceq : clearSub c g = c := by
          unfold clearSub
          rw [hl]
        rw [hceq]
        exact hl
    | some aid =>
        have hceq : (clearSub c g).g2m = c.g2m.filter (fun p => decide (p.1 ≠ g)) := by
          unfold clearSub
          rw [hl]
        rw [hceq]
        exact lookupG2M_filter_ne c.g2m g
  · intro aid ha
    have hceq : (clearSub c g).arrs = c.arrs.set aid [] := by
      unfold clearSub
      rw [ha]
    rw [hceq]
    obtain ⟨p, hp, hp2⟩ := lookupG2M_mem c.g2m g aid ha
    have halt : aid < c.arrs.length := hp2 ▸ hwf p hp
    rw [List.get?_set_of_lt' _ _ halt, if_pos rfl]
  · intro mid key s hs
    have hmem : s ∈ ((clearSub c g).mgrSubs.get? mid).getD [] :=
      List.mem_filter.mp hs |>.1
    rw [hmain mid] at hmem
    cases hm : c.mgrSubs.get? mid with
    | none => rw [hm] at hmem; cases hmem
    | some l =>
        rw [hm] at hmem
        exact unsubGroup_no_group l g s hmem

/-- A concrete container: two managers both holding edges for group 5,
registered in the single manager array of the group index. -/
def cW : ContainerModel :=
  { mgrSubs := [[.a 5 none, .a 6 none], [.b false 5 8 9 ['p'] none]]
    arrs := [[0, 1]]
    g2m := [(5, 0)] }

/-- Claim C4 (witness): clearing group 5 on the concrete container. -/
theorem c4_clearSub_witness :
    (∀ mid : Nat, (clearSub cW 5).mgrSubs.get? mid =
        (cW.mgrSubs.get? mid).map (fun l => unsubGroup l 5)) ∧
    lookupG2M (clearSub cW 5).g2m 5 = none ∧
    (∀ aid : Nat, lookupG2M cW.g2m 5 = some aid → (clearSub cW 5).arrs.get? aid = some []) ∧
    (∀ (mid : Nat) (key : Option JSStr) (s : Subscriptions),
        s ∈ notifySubs (((clearSub cW 5).mgrSubs.get? mid).getD []) key → s.group ≠ 5) :=
  c4_clearSub cW 5 (by decide) (by
    intro mid hex
    match mid, hex with
    | 0, _ => exact ⟨0, by decide, by decide⟩
    | 1, _ => exact ⟨0, by decide, by decide⟩
    | (n + 2), ⟨s, hs, _⟩ => simp [cW] at hs)

/-- The number of heap addresses not yet in the visited set: the measure
that shrinks every time the verifier descends into a fresh object. -/
def unseenCount (st : Store) (seen : Seen) : Nat :=
  ((List.range st.heap.length).filter (fun a => decide (JSVal.ref a ∉ seen))).length

theorem length_filter_mono {α : Type} (l : List α) (p q : α → Bool)
    (h : ∀ a, p a = true → q a = true) :
    (l.filter p).length ≤ (l.filter q).length := by
  induction l with
  | nil => simp
  | cons x rest ih =>
      cases hp : p x with
      | false =>
          rw [List.filter_cons_of_neg (by simp [hp])]
          cases hq : q x with
          | false =>
              rw [List.filter_cons_of_neg (by simp [hq])]
              exact ih
          | true =>
              rw [List.filter_cons_of_pos hq]
              simp only [List.length_cons]
              omega
      | true =>
          rw [List.filter_cons_of_pos hp, List.filter_cons_of_pos (h x hp)]
          simp only [List.length_cons]
          exact Nat.succ_le_succ ih

theorem length_filter_strict {α : Type} (l : List α) (p q : α → Bool)
    (h : ∀ a, p a = true → q a = true) (b : α) (hb : b ∈ l)
    (hqb : q b = true) (hpb : p b = false) :
    (l.filter p).length < (l.filter q).length := by
  induction l with
  | nil => cases hb
  | cons x rest ih =>
      rcases List.mem_cons.mp hb with rfl | hbr
      · rw [List.filter_cons_of_neg (by simp [hpb]), List.filter_cons_of_pos hqb]
        have := length_filter_mono rest p q h
        simp only [List.length_cons]
        omega
      · cases hp : p x with
        | false =>
            rw [List.filter_cons_of_neg (by simp [hp])]
            cases hq : q x with
            | false =>
                rw [List.filter_cons_of_neg (by simp [hq])]
                exact ih hbr
            | true =>
                rw [List.filter_cons_of_pos hq]
                have := ih hbr
                simp only [List.length_cons]
                omega
        | true =>
            rw [List.filter_cons_of_pos hp, List.filter_cons_of_pos (h x hp)]
            simp only [List.length_cons]
            exact Nat.succ_lt_succ (ih hbr)

theorem unseenCount_anti (st : Store) (s s' : Seen) (h : s ⊆ s') :
    unseenCount st s' ≤ unseenCount st s := by
  apply length_filter_mono
  intro a ha
  simp only [decide_eq_true_eq] at *
  exact fun hmem => ha (h hmem)

theorem unseenCount_insert_lt (st : Store) (seen : Seen) (a : Nat)
    (ha : a < st.heap.length) (hns : JSVal.ref a ∉ seen) :
    unseenCount st (JSVal.ref a :: seen) < unseenCount st seen := by
  apply length_filter_strict _ _ _ _ a (List.mem_range.mpr ha)
  · simpa using hns
  · simp
  · intro b hb
    simp only [decide_eq_true_eq] at *
    exact fun hmem => hb (List.mem_cons_of_mem _ hmem)

theorem unseenCount_le_heap (st : Store) (seen : Seen) :
    unseenCount st seen ≤ st.heap.length := by
  calc unseenCount st seen ≤ (List.range st.heap.length).length := List.length_filter_le _ _
    _ = st.heap.length := List.length_range _

theorem verifyList_ok_subset (f : JSVal → Seen → Option (Except VerifyError Seen))
    (hf : ∀ v s s', f v s = some (.ok s') → s ⊆ s') :
    ∀ (l : List JSVal) (seen s' : Seen),
      verifyList f l seen = some (.ok s') → seen ⊆ s' := by
  intro l
  induction l with
  | nil =>
      intro seen s' h
      simp only [verifyList, Option.some.injEq, Except.ok.injEq] at h
      subst h
      exact List.Subset.refl _
  | cons v rest ih =>
      intro seen s' h
      unfold verifyList at h
      cases hfv : f v seen with
      | none => rw [hfv] at h; cases h
      | some r =>
          rw [hfv] at h
          cases r with
          | error e => simp at h
          | ok s2 => exact List.Subset.trans (hf v seen s2 hfv) (ih s2 s' h)

theorem verifyArrList_ok_subset (f : JSVal → Seen → Option (Except VerifyError Seen))
    (hf : ∀ v s s', f v s = some (.ok s') → s ⊆ s') :
    ∀ (l : List (Nat × JSVal)) (e : Nat) (seen s' : Seen),
      verifyArrList f e l seen = some (.ok s') → seen ⊆ s' := by
  intro l
  induction l with
  | nil =>
      intro e seen s' h
      simp only [verifyArrList, Option.some.injEq, Except.ok.injEq] at h
      subst h
      exact List.Subset.refl _
  | cons iv rest ih =>
      intro e seen s' h
      obtain ⟨i, v⟩ := iv
      unfold verifyArrList at h
      by_cases hi : i ≠ e
      · rw [if_pos hi] at h
        simp at h
      · rw [if_neg hi] at h
        cases hfv : f v seen with
        | none => rw [hfv] at h; cases h
        | some r =>
            rw [hfv] at h
            cases r with
            | error e2 => simp at h
            | ok s2 => exact List.Subset.trans (hf v seen s2 hfv) (ih (i + 1) s2 s' h)

theorem verifyFuel_ok_subset (st : Store) :
    ∀ (fuel : Nat) (v : JSVal) (seen s' : Seen),
      verifyFuel st fuel v seen = some (.ok s') → seen ⊆ s' := by
  intro fuel
  induction fuel with
  | zero => intro v seen s' h; cases h
  | succ n ih =>
      intro v seen s' h
      unfold verifyFuel at h
      by_cases h1 : nullish (unwrapProxy st v)
      · rw [if_pos h1] at h
        simp only [Option.some.injEq, Except.ok.injEq] at h
        subst h
        exact List.Subset.refl _
      · rw [if_neg h1] at h
        by_cases h2 : !shouldSerialize st (unwrapProxy st v)
        · rw [if_pos h2] at h
          simp only [Option.some.injEq, Except.ok.injEq] at h
          subst h
          exact List.Subset.refl _
        · rw [if_neg h2] at h
          by_cases h3 : unwrapProxy st v ∈ seen
          · rw [if_pos h3] at h
            simp only [Option.some.injEq, Except.ok.injEq] at h
            subst h
            exact List.Subset.refl _
          · rw [if_neg h3] at h
            have hsub1 : seen ⊆ unwrapProxy st v :: seen := List.subset_cons_self _ _
            by_cases h4 : canSerializeModel st (unwrapProxy st v)
            · rw [if_pos h4] at h
              simp only [Option.some.injEq, Except.ok.injEq] at h
              subst h
              exact hsub1
            · rw [if_neg h4] at h
              cases hu : unwrapProxy st v with
              | bool b =>
                  rw [hu] at h
                  simp only [Option.some.injEq, Except.ok.injEq] at h
                  subst h
                  rw [← hu]
                  exact hsub1
              | str s =>
                  rw [hu] at h
                  simp only [Option.some.injEq, Except.ok.injEq] at h
                  subst h
                  rw [← hu]
                  exact hsub1
              | num m =>
                  rw [hu] at h
                  simp only [Option.some.injEq, Except.ok.injEq] at h
                  subst h
                  rw [← hu]
                  exact hsub1
              | undefined => rw [hu] at h; cases h
              | jsNull => rw [hu] at h; cases h
              | ref a =>
                  rw [hu] at h
                  dsimp only at h
                  cases hheap : st.heap.get? a with
                  | none => rw [hheap] at h; cases h
                  | some hd =>
                      rw [hheap] at h
                      cases hd with
                      | promise =>
                          simp only [Option.some.injEq, Except.ok.injEq] at h
                          subst h
                          rw [← hu]
                          exact hsub1
                      | node =>
                          simp only [Option.some.injEq, Except.ok.injEq] at h
                          subst h
                          rw [← hu]
                          exact hsub1
                      | arr elems =>
                          dsimp only at h
                          have hstep := verifyArrList_ok_subset (fun w s => verifyFuel st n w s)
                            (fun w s s2 hw => ih w s s2 hw) (enumFrom 0 elems) 0
                            (JSVal.ref a :: seen) s' h
                          exact List.Subset.trans (hu ▸ hsub1) hstep
                      | plain fields =>
                          dsimp only at h
                          have hstep := verifyList_ok_subset (fun w s => verifyFuel st n w s)
                            (fun w s s2 hw => ih w s s2 hw) (fields.map Prod.snd)
                            (JSVal.ref a :: seen) s' h
                          exact List.Subset.trans (hu ▸ hsub1) hstep
                      | foreign c cs => cases h
                      | funcObj nm => cases h
                      | proxy t => cases h

theorem verifyList_ne_none (st : Store) (f : JSVal → Seen → Option (Except VerifyError Seen))
    (C : Nat) (hf : ∀ v s, unseenCount st s ≤ C → f v s ≠ none)
    (hmono : ∀ v s s', f v s = some (.ok s') → s ⊆ s') :
    ∀ (l : List JSVal) (seen : Seen), unseenCount st seen ≤ C →
      verifyList f l seen ≠ none := by
  intro l
  induction l with
  | nil => intro seen hc; simp [verifyList]
  | cons v rest ih =>
      intro seen hc
      unfold verifyList
      cases hfv : f v seen with
      | none => exact absurd hfv (hf v seen hc)
      | some r =>
          cases r with
          | error e => simp
          | ok s2 =>
              exact ih s2 (le_trans (unseenCount_anti st seen s2 (hmono v seen s2 hfv)) hc)

theorem verifyArrList_ne_none (st : Store) (f : JSVal → Seen → Option (Except VerifyError Seen))
    (C : Nat) (hf : ∀ v s, unseenCount st s ≤ C → f v s ≠ none)
    (hmono : ∀ v s s', f v s = some (.ok s') → s ⊆ s') :
    ∀ (l : List (Nat × JSVal)) (e : Nat) (seen : Seen), unseenCount st seen ≤ C →
      verifyArrList f e l seen ≠ none := by
  intro l
  induction l with
  | nil => intro e seen hc; simp [verifyArrList]
  | cons iv rest ih =>
      intro e seen hc
      obtain ⟨i, v⟩ := iv
      unfold verifyArrList
      by_cases hi : i ≠ e
      · rw [if_pos hi]
        simp
      · rw [if_neg hi]
        cases hfv : f v seen with
        | none => exact absurd hfv (hf v seen hc)
        | some r =>
            cases r with
            | error e2 => simp
            | ok s2 =>
                exact ih (i + 1) s2
                  (le_trans (unseenCount_anti st seen s2 (hmono v seen s2 hfv)) hc)

theorem verifyFuel_ne_none (st : Store) :
    ∀ (fuel : Nat) (v : JSVal) (seen : Seen),
      unseenCount st seen < fuel → verifyFuel st fuel v seen ≠ none := by
  intro fuel
  induction fuel with
  | zero => intro v seen hc; exact absurd hc (Nat.not_lt_zero _)
  | succ n ih =>
      intro v seen hc
      unfold verifyFuel
      by_cases h1 : nullish (unwrapProxy st v)
      · rw [if_pos h1]; simp
      · rw [if_neg h1]
        by_cases h2 : !shouldSerialize st (unwrapProxy st v)
        · rw [if_pos h2]; simp
        · rw [if_neg h2]
          by_cases h3 : unwrapProxy st v ∈ seen
          · rw [if_pos h3]; simp
          · rw [if_neg h3]
            by_cases h4 : canSerializeModel st (unwrapProxy st v)
            · rw [if_pos h4]; simp
            · rw [if_neg h4]
              cases hu : unwrapProxy st v with
              | bool b => simp
              | str s => simp
              | num m => simp
              | undefined => simp
              | jsNull => simp
              | ref a =>
                  dsimp only
                  cases hheap : st.heap.get? a with
                  | none => simp
                  | some hd =>
                      have ha : a < st.heap.length := by
                        by_contra hge
                        rw [List.get?_eq_none.mpr (by omega)] at hheap
                        cases hheap
                      have hmem : JSVal.ref a ∉ seen := hu ▸ h3
                      have hdrop := unseenCount_insert_lt st seen a ha hmem
                      have hlt2 : unseenCount st (JSVal.ref a :: seen) < n := by omega
                      cases hd with
                      | promise => simp
                      | node => simp
                      | foreign c cs => simp
                      | funcObj nm => simp
                      | proxy t => simp
                      | arr elems =>
                          dsimp only
                          exact verifyArrList_ne_none st _ (unseenCount st (JSVal.ref a :: seen))
                            (fun w s hcs => ih w s (lt_of_le_of_lt hcs hlt2))
                            (fun w s s2 hw => verifyFuel_ok_subset st n w s s2 hw)
                            (enumFrom 0 elems) 0 (JSVal.ref a :: seen) (le_refl _)
                      | plain fields =>
                          dsimp only
                          exact verifyList_ne_none st _ (unseenCount st (JSVal.ref a :: seen))
                            (fun w s hcs => ih w s (lt_of_le_of_lt hcs hlt2))
                            (fun w s s2 hw => verifyFuel_ok_subset st n w s s2 hw)
                            (fields.map Prod.snd) (JSVal.ref a :: seen) (le_refl _)

/-- A cyclic store: address 0 holds a plain object whose single field
refers back to address 0. -/
def stCyc : Store := { heap := [HeapData.plain [(['x'], JSVal.ref 0)]], noSer := [] }

/-- Claim C7: `verifySerializable` terminates on every value graph,
including cyclic ones — the chosen fuel (one more than the heap size) is
never exhausted — and a value whose unwrapped form is already in the
visited set of the current pass is accepted immediately (result `ok`,
visited set unchanged), without re-descending: a cycle alone never causes
an error. -/
theorem c7_terminates_cycleSafe (st : Store) :
    (∀ v : JSVal, (verifySerializable st v).isSome) ∧
    (∀ (fuel : Nat) (v : JSVal) (seen : Seen), unwrapProxy st v ∈ seen →
        verifyFuel st (fuel + 1) v seen = some (.ok seen)) := by
  constructor
  · intro v
    unfold verifySerializable
    have hne := verifyFuel_ne_none st (st.heap.length + 1) v []
      (Nat.lt_succ_of_le (unseenCount_le_heap st []))
    cases hr : verifyFuel st (st.heap.length + 1) v [] with
    | none => exact absurd hr hne
    | some r => simp
  · intro fuel v seen hmem
    unfold verifyFuel
    by_cases h1 : nullish (unwrapProxy st v)
    · rw [if_pos h1]
    · rw [if_neg h1]
      by_cases h2 : !shouldSerialize st (unwrapProxy st v)
      · rw [if_pos h2]
      · rw [if_neg h2, if_pos hmem]

/-- Claim C7 (witness): a self-referential plain object (`st2` maps
address 0 to an object whose field points back to address 0) — the
verifier terminates on it, and with the object already in the visited set
the verifier accepts without descending. -/
theorem c7_terminates_cycleSafe_witness :
    (verifySerializable stCyc (JSVal.ref 0)).isSome ∧
    verifyFuel stCyc (5 + 1) (JSVal.ref 0) [JSVal.ref 0] = some (.ok [JSVal.ref 0]) :=
  ⟨(c7_terminates_cycleSafe stCyc).1 (JSVal.ref 0),
   (c7_terminates_cycleSafe stCyc).2 5 (JSVal.ref 0) [JSVal.ref 0] (by decide)⟩

/-- A value graph made only of primitives (boolean/string/number), dense
arrays, and plain serializable-shaped objects, with acyclicity witnessed
by the depth bound: the class of graphs Claim C9 quantifies over. -/
def cleanVal (st : Store) : Nat → JSVal → Bool
  | 0, _ => false
  | n + 1, v =>
    match v with
    | .bool _ => true
    | .str _ => true
    | .num _ => true
    | .ref a =>
        match st.heap.get? a with
        | some (.arr elems) => elems.all (fun o =>
            match o with
            | some w => cleanVal st n w
            | none => false)
        | some (.plain fields) => fields.all (fun f => cleanVal st n f.2)
        | _ => false
    | _ => false

/-- The `(index, value)` entries start at `e` and ascend without a gap. -/
def ConsecFrom : Nat → List (Nat × JSVal) → Prop
  | _, [] => True
  | e, (i, _) :: rest => i = e ∧ ConsecFrom (e + 1) rest

theorem consecFrom_enumFrom (elems : List (Option JSVal)) :
    ∀ k, (∀ o ∈ elems, o.isSome) → ConsecFrom k (enumFrom k elems) := by
  induction elems with
  | nil => intro k _; trivial
  | cons o rest ih =>
      intro k hall
      cases o with
      | none =>
          have := hall none (by simp)
          simp at this
      | some w =>
          exact ⟨rfl, ih (k + 1) (fun o ho => hall o (by simp [ho]))⟩

theorem enumFrom_length_all_some (elems : List (Option JSVal)) :
    ∀ k, (∀ o ∈ elems, o.isSome) → (enumFrom k elems).length = elems.length := by
  induction elems with
  | nil => intro k _; rfl
  | cons o rest ih =>
      intro k hall
      cases o with
      | none =>
          have := hall none (by simp)
          simp at this
      | some w =>
          simp only [enumFrom, List.length_cons]
          rw [ih (k + 1) (fun o ho => hall o (by simp [ho]))]

theorem enumFrom_mem (elems : List (Option JSVal)) :
    ∀ (k i : Nat) (v : JSVal), (i, v) ∈ enumFrom k elems → some v ∈ elems := by
  induction elems with
  | nil => intro k i v h; cases h
  | cons o rest ih =>
      intro k i v h
      cases o with
      | none => exact List.mem_cons_of_mem _ (ih (k + 1) i v h)
      | some w =>
          rcases List.mem_cons.mp h with heq | hmem
          · cases heq
            exact List.mem_cons_self _ _
          · exact List.mem_cons_of_mem _ (ih (k + 1) i v hmem)

theorem verifyList_no_error (f : JSVal → Seen → Option (Except VerifyError Seen))
    (P : JSVal → Prop) (hf : ∀ v s er, P v → f v s ≠ some (.error er)) :
    ∀ (l : List JSVal) (seen : Seen) (er : VerifyError), (∀ v ∈ l, P v) →
      verifyList f l seen ≠ some (.error er) := by
  intro l
  induction l with
  | nil => intro seen er _; simp [verifyList]
  | cons v rest ih =>
      intro seen er hP
      unfold verifyList
      cases hfv : f v seen with
      | none => simp
      | some r =>
          cases r with
          | error e2 => exact absurd hfv (hf v seen e2 (hP v (by simp)))
          | ok s2 => exact ih s2 er (fun w hw => hP w (by simp [hw]))

theorem verifyArrList_no_error (f : JSVal → Seen → Option (Except VerifyError Seen))
    (P : JSVal → Prop) (hf : ∀ v s er, P v → f v s ≠ some (.error er)) :
    ∀ (l : List (Nat × JSVal)) (e0 : Nat) (seen : Seen) (er : VerifyError),
      (∀ iv ∈ l, P iv.2) → ConsecFrom e0 l →
      verifyArrList f e0 l seen ≠ some (.error er) := by
  intro l
  induction l with
  | nil => intro e0 seen er _ _; simp [verifyArrList]
  | cons iv rest ih =>
      intro e0 seen er hP hc
      obtain ⟨i, v⟩ := iv
      obtain ⟨rfl, hc2⟩ := hc
      unfold verifyArrList
      rw [if_neg (by omega)]
      cases hfv : f v seen with
      | none => simp
      | some r =>
          cases r with
          | error e2 => exact absurd hfv (hf v seen e2 (hP (i, v) (by simp)))
          | ok s2 => exact ih (i + 1) s2 er (fun w hw => hP w (by simp [hw])) hc2

set_option synthInstance.maxHeartbeats 1000000 in
theorem verifyFuel_clean_no_error (st : Store) :
    ∀ (fuel m : Nat) (v : JSVal) (seen : Seen) (er : VerifyError),
      cleanVal st m v = true → verifyFuel st fuel v seen ≠ some (.error er) := by
  intro fuel
  induction fuel with
  | zero => intro m v seen er _; simp [verifyFuel]
  | succ n ih =>
      intro m v seen er hclean
      cases m with
      | zero => simp [cleanVal] at hclean
      | succ m =>
          unfold verifyFuel
          by_cases h1 : nullish (unwrapProxy st v)
          · rw [if_pos h1]; simp
          · rw [if_neg h1]
            by_cases h2 : !shouldSerialize st (unwrapProxy st v)
            · rw [if_pos h2]; simp
            · rw [if_neg h2]
              by_cases h3 : unwrapProxy st v ∈ seen
              · rw [if_pos h3]; simp
              · rw [if_neg h3]
                by_cases h4 : canSerializeModel st (unwrapProxy st v)
                · rw [if_pos h4]; simp
                · rw [if_neg h4]
                  cases v with
                  | bool b => simp [unwrapProxy]
                  | str s => simp [unwrapProxy]
                  | num k => simp [unwrapProxy]
                  | undefined => simp [cleanVal] at hclean
                  | jsNull => simp [cleanVal] at hclean
                  | ref a =>
                      cases hheap : st.heap.get? a with
                      | none =>
                          have hh2 : st.heap[a]? = none := by
                            rw [← List.get?_eq_getElem?]; exact hheap
                          simp [cleanVal, hh2] at hclean
                      | some hd =>
                          have hh2 : st.heap[a]? = some hd := by
                            rw [← List.get?_eq_getElem?]; exact hheap
                          cases hd with
                          | promise => simp [cleanVal, hh2] at hclean
                          | node => simp [cleanVal, hh2] at hclean
                          | foreign c cs => simp [cleanVal, hh2] at hclean
                          | funcObj nm => simp [cleanVal, hh2] at hclean
                          | proxy t => simp [cleanVal, hh2] at hclean
                          | arr elems =>
                              have hun : unwrapProxy st (JSVal.ref a) = JSVal.ref a := by
                                simp [unwrapProxy, hh2]
                              rw [hun]
                              dsimp only
                              rw [hheap]
                              dsimp only
                              have hall : ∀ o ∈ elems, ∃ w, o = some w ∧
                                  cleanVal st m w = true := by
                                have hcl2 : elems.all (fun o =>
                                    match o with
                                    | some w => cleanVal st m w
                                    | none => false) = true := by
                                  simpa [cleanVal, hh2] using hclean
                                intro o ho
                                have := List.all_eq_true.mp hcl2 o ho
                                cases o with
                                | none => simp at this
                                | some w => exact ⟨w, rfl, by simpa using this⟩
                              apply verifyArrList_no_error _
                                (fun w => cleanVal st m w = true)
                                (fun w s er2 hw => ih m w s er2 hw)
                              · intro iv hiv
                                obtain ⟨w2, hw2, hcw⟩ := hall (some iv.2)
                                  (enumFrom_mem elems 0 iv.1 iv.2 (by
                                    obtain ⟨i2, v2⟩ := iv
                                    exact hiv))
                                cases hw2
                                exact hcw
                              · apply consecFrom_enumFrom
                                intro o ho
                                obtain ⟨w2, hw2, _⟩ := hall o ho
                                simp [hw2]
                          | plain fields =>
                              have hun : unwrapProxy st (JSVal.ref a) = JSVal.ref a := by
                                simp [unwrapProxy, hh2]
                              rw [hun]
                              dsimp only
                              rw [hheap]
                              dsimp only
                              have hall : ∀ f ∈ fields, cleanVal st m f.2 = true := by
                                have hcl2 : fields.all (fun f => cleanVal st m f.2) = true := by
                                  simpa [cleanVal, hh2] using hclean
                                exact List.all_eq_true.mp hcl2
                              apply verifyList_no_error _
                                (fun w => cleanVal st m w = true)
                                (fun w s er2 hw => ih m w s er2 hw)
                              intro w hw
                              simp only [List.mem_map] at hw
                              obtain ⟨f, hf, hfe⟩ := hw
                              rw [← hfe]
                              exact hall f hf

/-- Claim C9: on every acyclic value graph composed only of primitives
(boolean/string/number), dense arrays, and plain serializable-shaped
objects, `verifySerializable` raises no error and returns its input value
unchanged. -/
theorem c9_clean_ok (st : Store) (n : Nat) (v : JSVal) (h : cleanVal st n v = true) :
    verifySerializable st v = some (.ok v) := by
  unfold verifySerializable
  cases hr : verifyFuel st (st.heap.length + 1) v [] with
  | none =>
      exact absurd hr (verifyFuel_ne_none st _ v []
        (Nat.lt_succ_of_le (unseenCount_le_heap st [])))
  | some r =>
      cases r with
      | error e => exact absurd hr (verifyFuel_clean_no_error st _ n v [] e h)
      | ok s' => simp [Except.map]

/-- The spec's concrete clean graph: an object keyed a, b where a holds 1
and b holds the dense array `[1, 2, 3]`. -/
def stOK : Store :=
  { heap := [HeapData.plain [(['a'], JSVal.num 1), (['b'], JSVal.ref 1)],
             HeapData.arr [some (JSVal.num 1), some (JSVal.num 2), some (JSVal.num 3)]]
    noSer := [] }

/-- Claim C9 (witness): the graph `(a: 1, b: [1, 2, 3])` verifies and is
returned unchanged. -/
theorem c9_clean_ok_witness : verifySerializable stOK (JSVal.ref 0) = some (.ok (JSVal.ref 0)) :=
  c9_clean_ok stOK 3 (JSVal.ref 0) (by decide)

theorem verifyArrList_gap (f : JSVal → Seen → Option (Except VerifyError Seen))
    (e i : Nat) (v : JSVal) (rest : List (Nat × JSVal)) (s : Seen) (h : i ≠ e) :
    verifyArrList f e ((i, v) :: rest) s = some (.error .holeError) := by
  unfold verifyArrList
  rw [if_pos h]

theorem verifyArrList_cons (f : JSVal → Seen → Option (Except VerifyError Seen))
    (e i : Nat) (v : JSVal) (rest : List (Nat × JSVal)) (s : Seen) :
    verifyArrList f e ((i, v) :: rest) s =
      if i ≠ e then some (.error .holeError)
      else
        match f v s with
        | none => none
        | some (.error er) => some (.error er)
        | some (.ok s2) => verifyArrList f (i + 1) rest s2 := rfl

theorem verifyArrList_append_ok (f : JSVal → Seen → Option (Except VerifyError Seen)) :
    ∀ (l1 : List (Nat × JSVal)) (l2 : List (Nat × JSVal)) (e : Nat) (s s' : Seen),
      ConsecFrom e l1 → verifyArrList f e l1 s = some (.ok s') →
      verifyArrList f e (l1 ++ l2) s = verifyArrList f (e + l1.length) l2 s' := by
  intro l1
  induction l1 with
  | nil =>
      intro l2 e s s' _ h
      simp only [verifyArrList, Option.some.injEq, Except.ok.injEq] at h
      subst h
      simp
  | cons iv rest ih =>
      intro l2 e s s' hc h
      obtain ⟨i, v⟩ := iv
      obtain ⟨rfl, hc2⟩ := hc
      rw [verifyArrList_cons, if_neg (by simp)] at h
      rw [List.cons_append, verifyArrList_cons, if_neg (by simp)]
      cases hfv : f v s with
      | none => rw [hfv] at h; cases h
      | some r =>
          rw [hfv] at h
          cases r with
          | error e2 => simp at h
          | ok s2 =>
              dsimp only at h ⊢
              rw [ih l2 (i + 1) s2 s' hc2 h]
              have heq : i + 1 + rest.length = i + ((i, v) :: rest).length := by
                simp only [List.length_cons]
                omega
              rw [heq]

theorem enumFrom_append (l1 l2 : List (Option JSVal)) :
    ∀ k, enumFrom k (l1 ++ l2) = enumFrom k l1 ++ enumFrom (k + l1.length) l2 := by
  induction l1 with
  | nil => intro k; simp [enumFrom]
  | cons o rest ih =>
      intro k
      have heq : k + 1 + rest.length = k + (o :: rest).length := by
        simp only [List.length_cons]
        omega
      cases o with
      | none =>
          simp only [List.cons_append, enumFrom, List.append_eq]
          rw [ih (k + 1), heq]
      | some w =>
          simp only [List.cons_append, enumFrom, List.append_eq]
          rw [ih (k + 1), heq]

theorem enumFrom_any_some (post : List (Option JSVal)) (h : post.any Option.isSome = true) :
    ∀ k, ∃ i v rest, enumFrom k post = (i, v) :: rest ∧ k ≤ i := by
  induction post with
  | nil => simp at h
  | cons o rest ih =>
      intro k
      cases o with
      | some w => exact ⟨k, w, enumFrom (k + 1) rest, rfl, le_refl _⟩
      | none =>
          have h2 : rest.any Option.isSome = true := by simpa using h
          obtain ⟨i, v, r2, hr, hk⟩ := ih h2 (k + 1)
          exact ⟨i, v, r2, hr, by omega⟩

theorem verifyArrList_clean_ok (st : Store) (fuelC C n : Nat) (hC : C < fuelC) :
    ∀ (l : List (Nat × JSVal)) (e : Nat) (seen : Seen),
      (∀ iv ∈ l, cleanVal st n iv.2 = true) → ConsecFrom e l →
      unseenCount st seen ≤ C →
      ∃ s', verifyArrList (fun w s => verifyFuel st fuelC w s) e l seen = some (.ok s') := by
  intro l e seen hP hc hm
  cases hr : verifyArrList (fun w s => verifyFuel st fuelC w s) e l seen with
  | none =>
      exact absurd hr (verifyArrList_ne_none st _ C
        (fun w s hcs => verifyFuel_ne_none st fuelC w s (lt_of_le_of_lt hcs hC))
        (fun w s s2 hw => verifyFuel_ok_subset st fuelC w s s2 hw) l e seen hm)
  | some r =>
      cases r with
      | error er =>
          exact absurd hr (verifyArrList_no_error _ (fun w => cleanVal st n w = true)
            (fun w s er2 hw => verifyFuel_clean_no_error st fuelC n w s er2 hw)
            l e seen er hP hc)
      | ok s' => exact ⟨s', rfl⟩

/-- Claim C8 (amended): an array with an internal hole — a missing index
followed by at least one assigned index — whose elements before the gap
are clean values, fails `verifySerializable` with the dedicated sparse-
array (NotSerializable) error, and the gap is detected before recursing
into any element past it: an index mismatch at the head of the remaining
entries yields the hole error no matter what the element or the rest are.
Arrays whose holes are all trailing are not rejected (see the
counterexample). -/
theorem c8_internalHole_amended (st : Store) (a : Nat) (pre post : List (Option JSVal))
    (n : Nat) (hheap : st.heap.get? a = some (.arr (pre ++ none :: post)))
    (hns : a ∉ st.noSer)
    (hpre : ∀ o ∈ pre, ∃ w, o = some w ∧ cleanVal st n w = true)
    (hpost : post.any Option.isSome = true) :
    verifySerializable st (JSVal.ref a) = some (.error .holeError) ∧
    (∀ (f : JSVal → Seen → Option (Except VerifyError Seen)) (e i : Nat) (v : JSVal)
        (rest : List (Nat × JSVal)) (s : Seen), i ≠ e →
        verifyArrList f e ((i, v) :: rest) s = some (.error .holeError)) := by
  refine ⟨?_, fun f e i v rest s hi => verifyArrList_gap f e i v rest s hi⟩
  have hh2 : st.heap[a]? = some (HeapData.arr (pre ++ none :: post)) := by
    rw [← List.get?_eq_getElem?]; exact hheap
  have ha : a < st.heap.length := by
    by_contra hge
    rw [List.get?_eq_none.mpr (by omega)] at hheap
    cases hheap
  have hun : unwrapProxy st (JSVal.ref a) = JSVal.ref a := by
    simp [unwrapProxy, hh2]
  have hCdrop : unseenCount st [JSVal.ref a] < unseenCount st [] :=
    unseenCount_insert_lt st [] a ha (by simp)
  have hCL : unseenCount st [JSVal.ref a] < st.heap.length :=
    lt_of_lt_of_le hCdrop (unseenCount_le_heap st [])
  have hpresome : ∀ o ∈ pre, o.isSome := by
    intro o ho
    obtain ⟨w, rfl, _⟩ := hpre o ho
    rfl
  have hl1clean : ∀ iv ∈ enumFrom 0 pre, cleanVal st n iv.2 = true := by
    intro iv hiv
    obtain ⟨w2, hw2, hcw⟩ := hpre (some iv.2) (enumFrom_mem pre 0 iv.1 iv.2 (by
      obtain ⟨i2, v2⟩ := iv
      exact hiv))
    cases hw2
    exact hcw
  obtain ⟨s', hok⟩ := verifyArrList_clean_ok st st.heap.length
    (unseenCount st [JSVal.ref a]) n hCL (enumFrom 0 pre) 0 [JSVal.ref a]
    hl1clean (consecFrom_enumFrom pre 0 hpresome) (le_refl _)
  obtain ⟨i0, v0, rest0, hrest, hi0⟩ := enumFrom_any_some post hpost (pre.length + 1)
  have henum : enumFrom 0 (pre ++ none :: post) =
      enumFrom 0 pre ++ enumFrom (pre.length + 1) post := by
    rw [enumFrom_append]
    simp [enumFrom]
  have hlen1 : (enumFrom 0 pre).length = pre.length :=
    enumFrom_length_all_some pre 0 hpresome
  have harr : verifyArrList (fun w s => verifyFuel st st.heap.length w s) 0
      (enumFrom 0 (pre ++ none :: post)) [JSVal.ref a] = some (.error .holeError) := by
    rw [henum, verifyArrList_append_ok _ (enumFrom 0 pre) _ 0 _ s'
      (consecFrom_enumFrom pre 0 hpresome) hok, hlen1, hrest, Nat.zero_add]
    exact verifyArrList_gap _ pre.length i0 v0 rest0 s' (by omega)
  unfold verifySerializable
  have hmain : verifyFuel st (st.heap.length + 1) (JSVal.ref a) [] =
      some (.error .holeError) := by
    unfold verifyFuel
    rw [hun]
    rw [if_neg (by simp [nullish])]
    rw [if_neg (by simp [shouldSerialize, hns])]
    rw [if_neg (by simp)]
    rw [if_neg (by simp [canSerializeModel, hh2])]
    dsimp only
    rw [hheap]
    dsimp only
    exact harr
  rw [hmain]
  simp [Except.map]

/-- An array of length 2 whose index 1 was never assigned (a trailing
hole). -/
def stTrailingHole : Store :=
  { heap := [HeapData.arr [some (JSVal.num 1), none]], noSer := [] }

/-- Claim C8 (counterexample): the claim says every array with a missing
index below its length fails; but `forEach` skips holes and the expected-
index check only fires on a later assigned index, so an array whose hole
is trailing — length 2, index 1 never assigned — verifies successfully. -/
theorem c8_counterexample :
    stTrailingHole.heap.get? 0 = some (HeapData.arr [some (JSVal.num 1), none]) ∧
    verifySerializable stTrailingHole (JSVal.ref 0) = some (.ok (JSVal.ref 0)) := by
  refine ⟨by decide, by decide⟩

/-- An array `[1, <hole>, 2]`: a missing index followed by an assigned
one. -/
def stInnerHole : Store :=
  { heap := [HeapData.arr [some (JSVal.num 1), none, some (JSVal.num 2)]], noSer := [] }

/-- Claim C8 (witness): the internal-hole array `[1, <hole>, 2]` fails
with the dedicated hole error. -/
theorem c8_internalHole_amended_witness :
    verifySerializable stInnerHole (JSVal.ref 0) = some (.error .holeError) ∧
    (∀ (f : JSVal → Seen → Option (Except VerifyError Seen)) (e i : Nat) (v : JSVal)
        (rest : List (Nat × JSVal)) (s : Seen), i ≠ e →
        verifyArrList f e ((i, v) :: rest) s = some (.error .holeError)) :=
  c8_internalHole_amended stInnerHole 0 [some (JSVal.num 1)] [some (JSVal.num 2)] 1
    (by decide) (by decide)
    (by
      intro o ho
      simp only [List.mem_singleton] at ho
      exact ⟨JSVal.num 1, ho, by decide⟩)
    (by decide)
